import Mathlib

/-!
# Verification of EACopy shared-layer claims

A shallow embedding of the data model and operations declared in
`include/EACopyShared.h` of the EACopy repository, together with proofs of
the claims made about them.  Definitions follow the C++ source where the
source is available; operations whose bodies live in `EACopyShared.cpp`
and the delta-codec implementation (absent from the source tree) are
modelled from the specification and marked as such in their doc comments.
-/

namespace EACopy

/-! ## Hash (EACopyShared.h, `struct Hash`)

`u64` values are modelled as `Nat`; the operations used here (equality
and the `<` / `!=` comparisons) never overflow, so no reduction mod 2^64
is needed. -/

/-- `struct Hash { u64 first = 0; u64 second = 0; }`. -/
structure Hash where
  first : Nat
  second : Nat
deriving DecidableEq, Repr

/-- `bool operator==(const Hash& o) const { return first == o.first && second == o.second; }` -/
def Hash.beq (a b : Hash) : Bool :=
  decide (a.first = b.first) && decide (a.second = b.second)

/-- `bool operator<(const Hash& o) const { return first == o.first ? second < o.second : first < o.first; }` -/
def Hash.lt (a b : Hash) : Bool :=
  if a.first = b.first then decide (a.second < b.second) else decide (a.first < b.first)

theorem Hash.beq_iff (a b : Hash) :
    Hash.beq a b = true ↔ (a.first = b.first ∧ a.second = b.second) := by
  simp [Hash.beq]

theorem Hash.lt_iff (a b : Hash) :
    Hash.lt a b = true ↔
      (a.first < b.first ∨ (a.first = b.first ∧ a.second < b.second)) := by
  unfold Hash.lt
  split_ifs with h <;> simp [h]

/-- `inline bool isValid(const Hash& hash) { return hash.first != 0 || hash.second != 0; }` -/
def isValid (hash : Hash) : Bool :=
  hash.first != 0 || hash.second != 0

/-! ## Time helpers (EACopyShared.h)

`getTime()` itself is platform code in `EACopyShared.cpp`; the inline
wrappers below are fully given by the header.  The raw time value is
modelled as the `Nat` argument. -/

/-- `inline u64 timeToMs(u64 time) { return time / 10000; }` -/
def timeToMs (time : Nat) : Nat :=
  time / 10000

/-- `inline u64 getTimeMs() { return getTime() / 10000; }` — the current raw
time returned by `getTime()` is passed explicitly. -/
def getTimeMs (getTime : Nat) : Nat :=
  getTime / 10000

/-! ## CopyContext (EACopyShared.h) -/

/-- `enum { CopyContextBufferSize = 8*1024*1024 };` -/
def CopyContextBufferSize : Nat := 8 * 1024 * 1024

/-- `struct CopyContext { ... u8* buffers[3]; }` — each buffer modelled as a
byte list. -/
structure CopyContext where
  buffers : List (List Nat)

/-- Modelled from the spec: the `CopyContext` constructor body lives in
`EACopyShared.cpp`, which is absent from the source tree; §3 of the spec says
a copy context holds "three buffers of size 8 MiB each".  The constructor
allocates the three `buffers` entries of `CopyContextBufferSize` bytes. -/
def CopyContext.init : CopyContext :=
  ⟨[List.replicate CopyContextBufferSize 0,
    List.replicate CopyContextBufferSize 0,
    List.replicate CopyContextBufferSize 0]⟩

/-! ## Claim theorems for the header-inline definitions -/

/-- **C5.** For every `Hash` h, `isValid h` returns true iff not both 64-bit
words are zero, i.e. `h.first ≠ 0 ∨ h.second ≠ 0`. -/
theorem isValid_iff_not_both_zero (h : Hash) :
    isValid h = true ↔ (h.first ≠ 0 ∨ h.second ≠ 0) := by
  simp [isValid]

/-- **C6.** Hash equality holds iff both components are equal, and `Hash.lt`
is a strict total order (lexicographic on `(first, second)`): exactly one of
`a < b`, `b < a`, `a == b` holds, `<` is irreflexive, and `<` is transitive. -/
theorem hash_lt_strict_total_order (a b c : Hash) :
    (Hash.beq a b = true ↔ (a.first = b.first ∧ a.second = b.second)) ∧
    (Hash.lt a b = true ∨ Hash.lt b a = true ∨ Hash.beq a b = true) ∧
    ¬(Hash.lt a b = true ∧ Hash.lt b a = true) ∧
    ¬(Hash.lt a b = true ∧ Hash.beq a b = true) ∧
    ¬(Hash.lt b a = true ∧ Hash.beq a b = true) ∧
    Hash.lt a a ≠ true ∧
    (Hash.lt a b = true → Hash.lt b c = true → Hash.lt a c = true) := by
  simp only [Hash.beq_iff, Hash.lt_iff, ne_eq]
  refine ⟨trivial, ?_⟩
  omega

/-- **C7.** Every `CopyContext` holds exactly three buffers, each of size
`CopyContextBufferSize = 8*1024*1024` bytes (8 MiB). -/
theorem copyContext_three_buffers_8MiB :
    CopyContext.init.buffers.length = 3 ∧
    CopyContext.init.buffers.map List.length =
      [CopyContextBufferSize, CopyContextBufferSize, CopyContextBufferSize] ∧
    CopyContextBufferSize = 8 * 1024 * 1024 := by
  refine ⟨rfl, ?_, rfl⟩
  simp [CopyContext.init]

/-- **C10.** `timeToMs t = t / 10000` under integer division and
`getTimeMs = getTime / 10000 = timeToMs getTime`; a value of `n`
milliseconds corresponds to `n * 10000` raw units (100-nanosecond units),
and `timeToMs` is monotone non-decreasing. -/
theorem timeToMs_div_monotone (t u : Nat) :
    timeToMs t = t / 10000 ∧
    getTimeMs t = timeToMs t ∧
    timeToMs (t * 10000) = t ∧
    (t ≤ u → timeToMs t ≤ timeToMs u) := by
  refine ⟨rfl, rfl, by simp [timeToMs], fun h => Nat.div_le_div_right h⟩

/-- Witness for C10 at `t = 50000`, `u = 72345`. -/
theorem timeToMs_div_monotone_witness :
    timeToMs 50000 = 5 ∧ timeToMs 50000 ≤ timeToMs 72345 :=
  ⟨by decide, (timeToMs_div_monotone 50000 72345).2.2.2 (by decide)⟩

/-! ## ScopedCriticalSection (EACopyShared.h)

The underlying `CriticalSection` (whose `enter`/`leave` are OS calls in
`EACopyShared.cpp`) is modelled by counters of how many times `enter()` and
`leave()` have been invoked on it; the guard itself, whose code is fully
inline in the header, is modelled exactly:

```
ScopedCriticalSection(CriticalSection& cs) : m_cs(cs), m_active(true) { cs.enter(); }
~ScopedCriticalSection() { leave(); }
void leave() { if (!m_active) return; m_cs.leave(); m_active = false; }
```
-/

/-- Observable effect counters of a `CriticalSection`. -/
structure CriticalSectionState where
  enterCount : Nat
  leaveCount : Nat
deriving DecidableEq, Repr

/-- The guard's own state: the `m_active` flag. -/
structure ScopedCriticalSection where
  m_active : Bool
deriving DecidableEq, Repr

/-- The constructor: sets `m_active = true` and calls `cs.enter()`. -/
def ScopedCriticalSection.build (cs : CriticalSectionState) :
    ScopedCriticalSection × CriticalSectionState :=
  (⟨true⟩, { cs with enterCount := cs.enterCount + 1 })

/-- `void leave() { if (!m_active) return; m_cs.leave(); m_active = false; }` -/
def ScopedCriticalSection.doLeave :
    ScopedCriticalSection × CriticalSectionState →
    ScopedCriticalSection × CriticalSectionState
  | (g, cs) =>
    if !g.m_active then (g, cs)
    else (⟨false⟩, { cs with leaveCount := cs.leaveCount + 1 })

/-- `~ScopedCriticalSection() { leave(); }` -/
def ScopedCriticalSection.destruct :
    ScopedCriticalSection × CriticalSectionState →
    ScopedCriticalSection × CriticalSectionState :=
  ScopedCriticalSection.doLeave

theorem ScopedCriticalSection.doLeave_inactive (cs : CriticalSectionState) :
    ScopedCriticalSection.doLeave (⟨false⟩, cs) = (⟨false⟩, cs) := rfl

theorem ScopedCriticalSection.iterate_doLeave_inactive (n : Nat)
    (cs : CriticalSectionState) :
    ScopedCriticalSection.doLeave^[n] (⟨false⟩, cs) = (⟨false⟩, cs) := by
  induction n with
  | zero => rfl
  | succ n ih => rw [Function.iterate_succ_apply, ScopedCriticalSection.doLeave_inactive, ih]

theorem ScopedCriticalSection.iterate_doLeave_active (n : Nat)
    (cs : CriticalSectionState) :
    ScopedCriticalSection.doLeave^[n + 1] (⟨true⟩, cs) =
      (⟨false⟩, { cs with leaveCount := cs.leaveCount + 1 }) := by
  rw [Function.iterate_succ_apply]
  exact ScopedCriticalSection.iterate_doLeave_inactive n _

/-- **C8.** Over the guard's lifetime — construction, any number `n` of
explicit `leave()` calls, then destruction — the underlying critical section
is released exactly once (`leaveCount` grows by exactly 1), and after an
explicit `leave()` call the guard is inactive. -/
theorem scopedCriticalSection_releases_once (cs : CriticalSectionState) (n : Nat) :
    (ScopedCriticalSection.destruct
        (ScopedCriticalSection.doLeave^[n] (ScopedCriticalSection.build cs))).2.leaveCount
      = cs.leaveCount + 1 ∧
    (ScopedCriticalSection.doLeave (ScopedCriticalSection.build cs)).1.m_active = false := by
  constructor
  · cases n with
    | zero => rfl
    | succ n =>
      rw [ScopedCriticalSection.build, ScopedCriticalSection.iterate_doLeave_active]
      rfl
  · rfl

/-! ## ScopeGuard (EACopyShared.h)

```
ScopeGuard(Function<void()>&& f) : func(std::move(f)) {}
~ScopeGuard() { func(); }
void cancel() { func = []() {}; }
void execute() { func(); func = []() {}; }
```

`func` is either the original function `f` or the empty lambda; this is
modelled by the flag `armed`, and the number of times `f` itself has run is
tracked by `invocations` (calling the empty lambda runs `f` zero times). -/

inductive GuardOp where
  | cancel
  | execute
deriving DecidableEq, Repr

structure ScopeGuardState where
  armed : Bool
  invocations : Nat
deriving DecidableEq, Repr

/-- Constructor: stores `f`; nothing has run yet. -/
def ScopeGuard.build : ScopeGuardState := ⟨true, 0⟩

/-- `void cancel() { func = []() {}; }` -/
def ScopeGuard.doCancel (s : ScopeGuardState) : ScopeGuardState :=
  { s with armed := false }

/-- `void execute() { func(); func = []() {}; }` — calls whatever `func`
currently is (running `f` iff still armed), then replaces it by the empty
lambda. -/
def ScopeGuard.doExecute (s : ScopeGuardState) : ScopeGuardState :=
  { armed := false, invocations := s.invocations + (if s.armed then 1 else 0) }

/-- `~ScopeGuard() { func(); }` — calls whatever `func` currently is. -/
def ScopeGuard.destruct (s : ScopeGuardState) : ScopeGuardState :=
  { s with invocations := s.invocations + (if s.armed then 1 else 0) }

def ScopeGuard.step (s : ScopeGuardState) : GuardOp → ScopeGuardState
  | GuardOp.cancel => ScopeGuard.doCancel s
  | GuardOp.execute => ScopeGuard.doExecute s

/-- A whole guard lifetime: construction, a sequence of `cancel`/`execute`
calls, then destruction at scope exit. -/
def ScopeGuard.run (ops : List GuardOp) : ScopeGuardState :=
  ScopeGuard.destruct (ops.foldl ScopeGuard.step ScopeGuard.build)

theorem ScopeGuard.run_aux (ops : List GuardOp) (s : ScopeGuardState) :
    (ScopeGuard.destruct (ops.foldl ScopeGuard.step s)).invocations =
      s.invocations +
        (if s.armed then
          (match ops.head? with
           | some GuardOp.cancel => 0
           | _ => 1)
         else 0) := by
  induction ops generalizing s with
  | nil =>
    simp [ScopeGuard.destruct]
  | cons op rest ih =>
    cases op with
    | cancel =>
      simp only [List.foldl_cons, ScopeGuard.step, ScopeGuard.doCancel, ih,
        List.head?_cons]
      simp
    | execute =>
      simp only [List.foldl_cons, ScopeGuard.step, ScopeGuard.doExecute, ih,
        List.head?_cons]
      cases s.armed <;> simp

/-- The claim "if `cancel()` is called before destruction, `f` is never
invoked" fails on the sequence `execute(); cancel()`: `cancel` is called
before destruction, yet `f` has run once (via the earlier `execute`). -/
theorem scopeGuard_cancel_claim_counterexample :
    GuardOp.cancel ∈ [GuardOp.execute, GuardOp.cancel] ∧
    (ScopeGuard.run [GuardOp.execute, GuardOp.cancel]).invocations = 1 := by
  constructor
  · simp
  · rfl

/-- **C9 (amended).** If `cancel()` is called before any `execute()` call
(and before destruction), `f` is never invoked; otherwise `f` is invoked
exactly once over the guard's lifetime — by the first `execute()` call if
there is one, after which destruction invokes nothing further, or else by
the destructor at scope exit.  Since `cancel` and `execute` both disarm the
guard, only the first call decides the count. -/
theorem scopeGuard_invoked_exactly_once (ops : List GuardOp) :
    (ScopeGuard.run ops).invocations =
      (match ops.head? with
       | some GuardOp.cancel => 0
       | _ => 1) := by
  unfold ScopeGuard.run
  rw [ScopeGuard.run_aux]
  simp [ScopeGuard.build]

/-! ## Association lists

The C++ `FileDatabase` keeps its indices in `std::map`s; the museum-piece
shallow embedding below uses association lists keyed by decidable equality
(the claims under verification do not depend on the map's internal
ordering). -/

def alFind {α β : Type} [DecidableEq α] (key : α) : List (α × β) → Option β
  | [] => none
  | e :: rest => if e.1 = key then some e.2 else alFind key rest

def alSet {α β : Type} [DecidableEq α] (key : α) (v : β) : List (α × β) → List (α × β)
  | [] => [(key, v)]
  | e :: rest => if e.1 = key then (key, v) :: rest else e :: alSet key v rest

def alErase {α β : Type} [DecidableEq α] (key : α) : List (α × β) → List (α × β)
  | [] => []
  | e :: rest => if e.1 = key then alErase key rest else e :: alErase key rest

def alKeys {α β : Type} (l : List (α × β)) : List α := l.map Prod.fst

theorem alKeys_cons {α β : Type} (e : α × β) (rest : List (α × β)) :
    alKeys (e :: rest) = e.1 :: alKeys rest := rfl

theorem alFind_alSet_self {α β : Type} [DecidableEq α] (key : α) (v : β)
    (l : List (α × β)) : alFind key (alSet key v l) = some v := by
  induction l with
  | nil => simp [alSet, alFind]
  | cons e rest ih =>
    by_cases h : e.1 = key <;> simp [alSet, alFind, h, ih]

theorem alFind_alSet_ne {α β : Type} [DecidableEq α] {k key : α} (v : β)
    (l : List (α × β)) (h : k ≠ key) : alFind k (alSet key v l) = alFind k l := by
  induction l with
  | nil => simp [alSet, alFind, Ne.symm h]
  | cons e rest ih =>
    by_cases he : e.1 = key
    · simp [alSet, alFind, he, Ne.symm h]
    · simp only [alSet, if_neg he, alFind]
      rw [ih]

theorem alFind_alErase_self {α β : Type} [DecidableEq α] (key : α)
    (l : List (α × β)) : alFind key (alErase key l) = none := by
  induction l with
  | nil => simp [alErase, alFind]
  | cons e rest ih =>
    by_cases h : e.1 = key <;> simp [alErase, alFind, h, ih]

theorem alFind_alErase_ne {α β : Type} [DecidableEq α] {k key : α}
    (l : List (α × β)) (h : k ≠ key) : alFind k (alErase key l) = alFind k l := by
  induction l with
  | nil => simp [alErase]
  | cons e rest ih =>
    by_cases he : e.1 = key
    · simp [alErase, alFind, he, Ne.symm h, ih]
    · simp only [alErase, if_neg he, alFind]
      rw [ih]

theorem mem_alKeys_iff {α β : Type} [DecidableEq α] (k : α) (l : List (α × β)) :
    k ∈ alKeys l ↔ (alFind k l).isSome := by
  induction l with
  | nil => simp [alKeys, alFind]
  | cons e rest ih =>
    simp only [alKeys_cons, List.mem_cons, alFind]
    by_cases h : e.1 = k
    · simp [h]
    · simp [h, Ne.symm h, ih]

theorem mem_alKeys_alSet {α β : Type} [DecidableEq α] (a key : α) (v : β)
    (l : List (α × β)) : a ∈ alKeys (alSet key v l) ↔ a = key ∨ a ∈ alKeys l := by
  induction l with
  | nil => simp [alSet, alKeys]
  | cons e rest ih =>
    by_cases he : e.1 = key
    · have hset : alSet key v (e :: rest) = (key, v) :: rest := by simp [alSet, he]
      rw [hset]
      simp only [alKeys_cons, List.mem_cons, he]
      tauto
    · simp only [alSet, if_neg he, alKeys_cons, List.mem_cons, ih]
      tauto

theorem alErase_sublist {α β : Type} [DecidableEq α] (key : α) (l : List (α × β)) :
    (alErase key l).Sublist l := by
  induction l with
  | nil => simp [alErase]
  | cons e rest ih =>
    by_cases h : e.1 = key
    · simpa [alErase, h] using ih.cons e
    · simpa [alErase, h] using ih.cons₂ e

theorem mem_alKeys_alErase {α β : Type} [DecidableEq α] (a key : α)
    (l : List (α × β)) : a ∈ alKeys (alErase key l) ↔ a ∈ alKeys l ∧ a ≠ key := by
  induction l with
  | nil => simp [alErase, alKeys]
  | cons e rest ih =>
    by_cases h : e.1 = key
    · have herase : alErase key (e :: rest) = alErase key rest := by simp [alErase, h]
      rw [herase, ih]
      simp only [alKeys_cons, List.mem_cons, h]
      constructor
      · exact fun ⟨m, ne⟩ => ⟨Or.inr m, ne⟩
      · rintro ⟨rfl | m, ne⟩
        · exact absurd rfl ne
        · exact ⟨m, ne⟩
    · simp only [alErase, if_neg h, alKeys_cons, List.mem_cons, ih]
      constructor
      · rintro (rfl | ⟨m, ne⟩)
        · exact ⟨Or.inl rfl, h⟩
        · exact ⟨Or.inr m, ne⟩
      · rintro ⟨rfl | m, ne⟩
        · exact Or.inl rfl
        · exact Or.inr ⟨m, ne⟩

theorem alKeys_alSet_nodup {α β : Type} [DecidableEq α] (key : α) (v : β)
    (l : List (α × β)) (h : (alKeys l).Nodup) : (alKeys (alSet key v l)).Nodup := by
  induction l with
  | nil => simp [alSet, alKeys]
  | cons e rest ih =>
    simp only [alKeys_cons, List.nodup_cons] at h
    by_cases he : e.1 = key
    · simp only [alSet, if_pos he, alKeys_cons, List.nodup_cons]
      exact ⟨he ▸ h.1, h.2⟩
    · simp only [alSet, if_neg he, alKeys_cons, List.nodup_cons]
      refine ⟨?_, ih h.2⟩
      rw [mem_alKeys_alSet]
      rintro (rfl | m)
      · exact he rfl
      · exact h.1 m

theorem alKeys_alErase_nodup {α β : Type} [DecidableEq α] (key : α)
    (l : List (α × β)) (h : (alKeys l).Nodup) : (alKeys (alErase key l)).Nodup :=
  ((alErase_sublist key l).map Prod.fst).nodup h

/-! ## FileDatabase (EACopyShared.h / spec §3, §4.2)

The header declares the indices:

```
FilesMap      m_files;        // Map<FileKey, FileRec>
FilesHashMap  m_fileHashes;   // Map<Hash, FileRec*>
FilesHistory  m_filesHistory; // List<FileKey>
```

A `FileRec*` stored in `m_fileHashes` points at the record owned by
`m_files`; the pointer is modelled by the `FileKey` owning that record.
The record's `historyIt` iterator is modelled by the key's position in
`m_filesHistory` itself. -/

/-- `struct FileTime { uint dwLowDateTime; uint dwHighDateTime; };` -/
structure FileTime where
  dwLowDateTime : Nat
  dwHighDateTime : Nat
deriving DecidableEq, Repr

/-- `struct FileKey { WString name; FileTime lastWriteTime; u64 fileSize; };`
(its `operator<` gives `std::map` a total order on these fields; here the
key is compared structurally). -/
structure FileKey where
  name : String
  lastWriteTime : FileTime
  fileSize : Nat
deriving DecidableEq, Repr

/-- `struct FileRec { WString name; Hash hash; FilesHistory::iterator historyIt; }`
minus the iterator (see module comment). -/
structure FileRec where
  name : String
  hash : Hash
deriving DecidableEq, Repr

structure FileDatabase where
  m_files : List (FileKey × FileRec)
  m_fileHashes : List (Hash × FileKey)
  m_filesHistory : List FileKey
deriving Repr

def emptyDb : FileDatabase := ⟨[], [], []⟩

/-- Remove every occurrence of `key` from a history list. -/
def removeAllKey (key : FileKey) (l : List FileKey) : List FileKey :=
  l.filter (fun k => decide (¬ k = key))

/-- Remove a file name from the modelled disk (a list of file names). -/
def deleteName (name : String) (disk : List String) : List String :=
  disk.filter (fun s => decide (¬ s = name))

/-- Modelled from the spec: helper of the operations of
`FileDatabase` (bodies in `EACopyShared.cpp`, absent from the source tree);
§4.2 `removeByKey` "also removes the fingerprint-index entry iff it points
at this key". -/
def removeHashEntry (hashes : List (Hash × FileKey)) (hash : Hash) (key : FileKey) :
    List (Hash × FileKey) :=
  match alFind hash hashes with
  | some k => if k = key then alErase hash hashes else hashes
  | none => hashes

/-- Modelled from the spec: §3 `byFingerprint` is "first-insert-wins for
reverse lookup" and "the database never stores a zero fingerprint". -/
def addHashEntry (hashes : List (Hash × FileKey)) (hash : Hash) (key : FileKey) :
    List (Hash × FileKey) :=
  if isValid hash then
    match alFind hash hashes with
    | some _ => hashes
    | none => alSet hash key hashes
  else hashes

/-- Modelled from the spec: `FileDatabase::removeFileHistory` (body in
`EACopyShared.cpp`, absent from the source tree); §4.2 `removeByKey(key)` —
"explicit eviction; also removes the fingerprint-index entry iff it points
at this key". -/
def removeFileHistory (db : FileDatabase) (key : FileKey) : FileDatabase :=
  match alFind key db.m_files with
  | none => db
  | some r =>
    { m_files := alErase key db.m_files
      m_fileHashes := removeHashEntry db.m_fileHashes r.hash key
      m_filesHistory := removeAllKey key db.m_filesHistory }

/-- Modelled from the spec: the mutation part of
`FileDatabase::addToFilesHistory` (body in `EACopyShared.cpp`, absent from
the source tree); §4.2 `insert(key, fingerprint, path)` — "if `key` exists
with identical fingerprint, no-op; if `key` exists with different
fingerprint, replace.  Appends a history entry". -/
def addToFilesHistoryImpl (db : FileDatabase) (key : FileKey) (hash : Hash)
    (fullFileName : String) : FileDatabase :=
  match alFind key db.m_files with
  | some r =>
    if r.hash = hash then db
    else
      { m_files := alSet key ⟨fullFileName, hash⟩ db.m_files
        m_fileHashes := addHashEntry (removeHashEntry db.m_fileHashes r.hash key) hash key
        m_filesHistory := removeAllKey key db.m_filesHistory ++ [key] }
  | none =>
      { m_files := alSet key ⟨fullFileName, hash⟩ db.m_files
        m_fileHashes := addHashEntry db.m_fileHashes hash key
        m_filesHistory := db.m_filesHistory ++ [key] }

/-- Result of the garbage-collection loop. -/
structure GcResult where
  files : List (FileKey × FileRec)
  hashes : List (Hash × FileKey)
  history : List FileKey
  disk : List String
  evicted : Nat

/-- Modelled from the spec: the eviction loop of
`FileDatabase::garbageCollect` (body in `EACopyShared.cpp`, absent from the
source tree); §4.2 — "while `history.length > maxHistory`, remove the oldest
history entry; the on-disk representative file referenced by an evicted
record is also deleted".  The history is kept oldest-first. -/
def gcLoop (maxHistory : Nat) (files : List (FileKey × FileRec))
    (hashes : List (Hash × FileKey)) (disk : List String) :
    List FileKey → GcResult
  | [] => ⟨files, hashes, [], disk, 0⟩
  | key :: rest =>
    if (key :: rest).length ≤ maxHistory then ⟨files, hashes, key :: rest, disk, 0⟩
    else
      let files2 := alErase key files
      let hashes2 := match alFind key files with
        | some r => removeHashEntry hashes r.hash key
        | none => hashes
      let disk2 := match alFind key files with
        | some r => deleteName r.name disk
        | none => disk
      let out := gcLoop maxHistory files2 hashes2 disk2 rest
      { out with evicted := out.evicted + 1 }

/-- Modelled from the spec: `FileDatabase::garbageCollect(maxHistory)`
returning the evicted count; the modelled on-disk file set is threaded
through and returned alongside. -/
def garbageCollect (db : FileDatabase) (disk : List String) (maxHistory : Nat) :
    FileDatabase × List String × Nat :=
  let r := gcLoop maxHistory db.m_files db.m_fileHashes disk db.m_filesHistory
  (⟨r.files, r.hashes, r.history⟩, r.disk, r.evicted)

/-- Modelled from the spec: the mutate-then-evict tail of
`FileDatabase::addToFilesHistory` — §4.2 insert "runs eviction if the
history exceeds the configured maximum" (`maxHistory` is the configured
maximum). -/
def insertAndEvict (maxHistory : Nat) (db : FileDatabase) (disk : List String)
    (key : FileKey) (hash : Hash) (fullFileName : String) :
    FileDatabase × List String :=
  let db2 := addToFilesHistoryImpl db key hash fullFileName
  if maxHistory < db2.m_filesHistory.length then
    let out := garbageCollect db2 disk maxHistory
    (out.1, out.2.1)
  else (db2, disk)

/-- Modelled from the spec: `FileDatabase::addToFilesHistory` (body in
`EACopyShared.cpp`, absent from the source tree) — the insert of §4.2:
"if `key` exists with identical fingerprint, no-op" (the no-op path
returns without touching history or running eviction). -/
def addToFilesHistory (maxHistory : Nat) (db : FileDatabase) (disk : List String)
    (key : FileKey) (hash : Hash) (fullFileName : String) :
    FileDatabase × List String :=
  match alFind key db.m_files with
  | some r =>
    if r.hash = hash then (db, disk)
    else insertAndEvict maxHistory db disk key hash fullFileName
  | none => insertAndEvict maxHistory db disk key hash fullFileName

/-- A public-API mutation of the database. -/
inductive DbOp where
  | add (key : FileKey) (hash : Hash) (name : String)
  | remove (key : FileKey)
  | collect (maxHistory : Nat)

def dbStep (maxHistory : Nat) (s : FileDatabase × List String) :
    DbOp → FileDatabase × List String
  | DbOp.add key hash name => addToFilesHistory maxHistory s.1 s.2 key hash name
  | DbOp.remove key => (removeFileHistory s.1 key, s.2)
  | DbOp.collect k =>
    let out := garbageCollect s.1 s.2 k
    (out.1, out.2.1)

/-- Apply a sequence of public-API mutations starting from the empty
database (`maxHistory` is the configured maximum used by inserts). -/
def runDbOps (maxHistory : Nat) (disk : List String) (ops : List DbOp) :
    FileDatabase × List String :=
  ops.foldl (dbStep maxHistory) (emptyDb, disk)

/-- Well-formedness of the three indices (§3 invariants (a) and (b), plus
the bookkeeping facts they rest on). -/
structure DbWf (db : FileDatabase) : Prop where
  histNodup : db.m_filesHistory.Nodup
  filesNodup : (alKeys db.m_files).Nodup
  hashesNodup : (alKeys db.m_fileHashes).Nodup
  histInFiles : ∀ key, key ∈ db.m_filesHistory → (alFind key db.m_files).isSome
  filesInHist : ∀ key, (alFind key db.m_files).isSome → key ∈ db.m_filesHistory
  hashPoints : ∀ h key, alFind h db.m_fileHashes = some key →
      ∃ r, alFind key db.m_files = some r ∧ r.hash = h

theorem mem_removeAllKey (k key : FileKey) (l : List FileKey) :
    k ∈ removeAllKey key l ↔ k ∈ l ∧ k ≠ key := by
  simp [removeAllKey, List.mem_filter]

theorem removeAllKey_nodup (key : FileKey) (l : List FileKey) (h : l.Nodup) :
    (removeAllKey key l).Nodup :=
  h.filter _

theorem mem_deleteName {s name : String} {disk : List String}
    (h : s ∈ deleteName name disk) : s ∈ disk := by
  simp only [deleteName, List.mem_filter] at h
  exact h.1

theorem name_not_mem_deleteName (name : String) (disk : List String) :
    name ∉ deleteName name disk := by
  simp [deleteName, List.mem_filter]

theorem removeHashEntry_absent {hs : List (Hash × FileKey)} {hh : Hash}
    (key : FileKey) (e : alFind hh hs = none) : removeHashEntry hs hh key = hs := by
  unfold removeHashEntry
  rw [e]

theorem removeHashEntry_hit {hs : List (Hash × FileKey)} {hh : Hash}
    {key k' : FileKey} (e : alFind hh hs = some k') (hk : k' = key) :
    removeHashEntry hs hh key = alErase hh hs := by
  unfold removeHashEntry
  rw [e]
  show (if k' = key then alErase hh hs else hs) = alErase hh hs
  rw [if_pos hk]

theorem removeHashEntry_miss {hs : List (Hash × FileKey)} {hh : Hash}
    {key k' : FileKey} (e : alFind hh hs = some k') (hk : ¬ k' = key) :
    removeHashEntry hs hh key = hs := by
  unfold removeHashEntry
  rw [e]
  show (if k' = key then alErase hh hs else hs) = hs
  rw [if_neg hk]

theorem addHashEntry_invalid {hs : List (Hash × FileKey)} {hash : Hash}
    (key : FileKey) (hv : ¬ isValid hash = true) : addHashEntry hs hash key = hs := by
  unfold addHashEntry
  rw [if_neg hv]

theorem addHashEntry_found {hs : List (Hash × FileKey)} {hash : Hash}
    (key : FileKey) {k' : FileKey} (hv : isValid hash = true)
    (e : alFind hash hs = some k') : addHashEntry hs hash key = hs := by
  unfold addHashEntry
  rw [if_pos hv, e]

theorem addHashEntry_new {hs : List (Hash × FileKey)} {hash : Hash}
    (key : FileKey) (hv : isValid hash = true) (e : alFind hash hs = none) :
    addHashEntry hs hash key = alSet hash key hs := by
  unfold addHashEntry
  rw [if_pos hv, e]

theorem removeHashEntry_find {hs : List (Hash × FileKey)} {hh : Hash} {key : FileKey}
    {h : Hash} {k : FileKey} (hf : alFind h (removeHashEntry hs hh key) = some k) :
    alFind h hs = some k := by
  cases e : alFind hh hs with
  | none => rwa [removeHashEntry_absent key e] at hf
  | some k' =>
    by_cases hk : k' = key
    · rw [removeHashEntry_hit e hk] at hf
      by_cases hhh : h = hh
      · subst hhh; rw [alFind_alErase_self] at hf; cases hf
      · rwa [alFind_alErase_ne _ hhh] at hf
    · rwa [removeHashEntry_miss e hk] at hf

theorem removeHashEntry_nodup (hs : List (Hash × FileKey)) (hh : Hash) (key : FileKey)
    (nd : (alKeys hs).Nodup) : (alKeys (removeHashEntry hs hh key)).Nodup := by
  cases e : alFind hh hs with
  | none => rw [removeHashEntry_absent key e]; exact nd
  | some k' =>
    by_cases hk : k' = key
    · rw [removeHashEntry_hit e hk]; exact alKeys_alErase_nodup _ _ nd
    · rw [removeHashEntry_miss e hk]; exact nd

theorem addHashEntry_nodup (hs : List (Hash × FileKey)) (hash : Hash) (key : FileKey)
    (nd : (alKeys hs).Nodup) : (alKeys (addHashEntry hs hash key)).Nodup := by
  by_cases hv : isValid hash = true
  · cases e : alFind hash hs with
    | none => rw [addHashEntry_new key hv e]; exact alKeys_alSet_nodup _ _ _ nd
    | some _ => rw [addHashEntry_found key hv e]; exact nd
  · rw [addHashEntry_invalid key hv]; exact nd

theorem removeHashEntry_not_points {files : List (FileKey × FileRec)}
    {hs : List (Hash × FileKey)} {key : FileKey} {r : FileRec}
    (hp : ∀ h k, alFind h hs = some k →
      ∃ rec, alFind k files = some rec ∧ rec.hash = h)
    (hr : alFind key files = some r) :
    ∀ h k, alFind h (removeHashEntry hs r.hash key) = some k → k ≠ key := by
  intro h k hf heq
  subst heq
  have hfs : alFind h hs = some k := removeHashEntry_find hf
  obtain ⟨rec, hrec, hrh⟩ := hp h k hfs
  rw [hr] at hrec
  cases hrec
  subst hrh
  rw [removeHashEntry_hit hfs rfl, alFind_alErase_self] at hf
  cases hf

theorem addHashEntry_hashPoints (files2 : List (FileKey × FileRec))
    (hs2 : List (Hash × FileKey)) (hash : Hash) (key : FileKey)
    (hnew : ∃ r, alFind key files2 = some r ∧ r.hash = hash)
    (hold : ∀ h k, alFind h hs2 = some k →
      ∃ r, alFind k files2 = some r ∧ r.hash = h) :
    ∀ h k, alFind h (addHashEntry hs2 hash key) = some k →
      ∃ r, alFind k files2 = some r ∧ r.hash = h := by
  intro h k hf
  by_cases hv : isValid hash = true
  · cases e : alFind hash hs2 with
    | some _ => rw [addHashEntry_found key hv e] at hf; exact hold h k hf
    | none =>
      rw [addHashEntry_new key hv e] at hf
      by_cases hhh : h = hash
      · subst hhh
        rw [alFind_alSet_self] at hf
        cases hf
        exact hnew
      · rw [alFind_alSet_ne _ _ hhh] at hf
        exact hold h k hf
  · rw [addHashEntry_invalid key hv] at hf
    exact hold h k hf

/-- Removing a key's record, its history entries, and its fingerprint-index
entry preserves well-formedness, for any new history list holding exactly
the old keys other than the removed one. -/
theorem DbWf_eraseKey {files : List (FileKey × FileRec)}
    {hashes : List (Hash × FileKey)} {hist : List FileKey}
    {key : FileKey} {r0 : FileRec}
    (wf : DbWf ⟨files, hashes, hist⟩) (hr : alFind key files = some r0)
    (hist' : List FileKey)
    (hmem : ∀ k, k ∈ hist' ↔ (k ∈ hist ∧ k ≠ key))
    (hnd : hist'.Nodup) :
    DbWf ⟨alErase key files, removeHashEntry hashes r0.hash key, hist'⟩ where
  histNodup := hnd
  filesNodup := alKeys_alErase_nodup _ _ wf.filesNodup
  hashesNodup := removeHashEntry_nodup _ _ _ wf.hashesNodup
  histInFiles := by
    intro k hk
    obtain ⟨hmem', hne⟩ := (hmem k).1 hk
    rw [alFind_alErase_ne _ hne]
    exact wf.histInFiles k hmem'
  filesInHist := by
    intro k hk
    by_cases hne : k = key
    · subst hne
      rw [alFind_alErase_self] at hk
      cases hk
    · rw [alFind_alErase_ne _ hne] at hk
      exact (hmem k).2 ⟨wf.filesInHist k hk, hne⟩
  hashPoints := by
    intro h k hf
    have hne : k ≠ key := removeHashEntry_not_points wf.hashPoints hr h k hf
    obtain ⟨rec, hrec, hrh⟩ := wf.hashPoints h k (removeHashEntry_find hf)
    exact ⟨rec, by rwa [alFind_alErase_ne _ hne], hrh⟩

/-- `removeFileHistory` preserves well-formedness. -/
theorem DbWf_removeFileHistory (db : FileDatabase) (key : FileKey)
    (wf : DbWf db) : DbWf (removeFileHistory db key) := by
  unfold removeFileHistory
  cases e : alFind key db.m_files with
  | none => exact wf
  | some r =>
    exact DbWf_eraseKey wf e (removeAllKey key db.m_filesHistory)
      (fun k => mem_removeAllKey k key db.m_filesHistory)
      (removeAllKey_nodup key db.m_filesHistory wf.histNodup)

theorem gcLoop_cons_le {maxH : Nat} {files : List (FileKey × FileRec)}
    {hashes : List (Hash × FileKey)} {disk : List String} {key : FileKey}
    {rest : List FileKey} (h : (key :: rest).length ≤ maxH) :
    gcLoop maxH files hashes disk (key :: rest) = ⟨files, hashes, key :: rest, disk, 0⟩ := by
  unfold gcLoop
  rw [if_pos h]

theorem gcLoop_cons_gt {maxH : Nat} {files : List (FileKey × FileRec)}
    {hashes : List (Hash × FileKey)} {disk : List String} {key : FileKey}
    {rest : List FileKey} {r0 : FileRec}
    (h : ¬ (key :: rest).length ≤ maxH) (e : alFind key files = some r0) :
    gcLoop maxH files hashes disk (key :: rest) =
      { gcLoop maxH (alErase key files) (removeHashEntry hashes r0.hash key)
          (deleteName r0.name disk) rest with
        evicted := (gcLoop maxH (alErase key files) (removeHashEntry hashes r0.hash key)
          (deleteName r0.name disk) rest).evicted + 1 } := by
  conv_lhs => rw [gcLoop.eq_def]
  dsimp only
  rw [if_neg h, e]

/-- Full functional specification of the garbage-collection loop: it
preserves well-formedness, evicts exactly `hist.length - maxH` oldest
entries, never adds disk files, and deletes the representative file of
every evicted record. -/
theorem gcLoop_spec (maxH : Nat) (hist : List FileKey) :
    ∀ (files : List (FileKey × FileRec)) (hashes : List (Hash × FileKey))
      (disk : List String), DbWf ⟨files, hashes, hist⟩ →
      DbWf ⟨(gcLoop maxH files hashes disk hist).files,
            (gcLoop maxH files hashes disk hist).hashes,
            (gcLoop maxH files hashes disk hist).history⟩ ∧
      (gcLoop maxH files hashes disk hist).evicted = hist.length - maxH ∧
      (gcLoop maxH files hashes disk hist).history =
        hist.drop (gcLoop maxH files hashes disk hist).evicted ∧
      (∀ s, s ∈ (gcLoop maxH files hashes disk hist).disk → s ∈ disk) ∧
      (∀ key, key ∈ hist.take (gcLoop maxH files hashes disk hist).evicted →
        ∀ rec, alFind key files = some rec →
          rec.name ∉ (gcLoop maxH files hashes disk hist).disk) := by
  induction hist with
  | nil =>
    intro files hashes disk wf
    refine ⟨wf, by simp [gcLoop], by simp [gcLoop], fun s hs => hs, ?_⟩
    intro key hk
    simp [gcLoop] at hk
  | cons key rest ih =>
    intro files hashes disk wf
    by_cases hle : (key :: rest).length ≤ maxH
    · rw [gcLoop_cons_le hle]
      refine ⟨wf, ?_, by simp, fun s hs => hs, ?_⟩
      · simp only [List.length_cons] at hle ⊢
        omega
      · intro k hk
        simp at hk
    · have hsome : (alFind key files).isSome :=
        wf.histInFiles key (List.mem_cons_self key rest)
      obtain ⟨r0, e⟩ := Option.isSome_iff_exists.1 hsome
      have hkeyrest : key ∉ rest := (List.nodup_cons.1 wf.histNodup).1
      have wf2 : DbWf ⟨alErase key files, removeHashEntry hashes r0.hash key, rest⟩ := by
        refine DbWf_eraseKey wf e rest (fun k => ?_) (List.Nodup.of_cons wf.histNodup)
        constructor
        · intro hk
          exact ⟨List.mem_cons_of_mem key hk, fun heq => hkeyrest (heq ▸ hk)⟩
        · rintro ⟨hk, hne⟩
          cases List.mem_cons.1 hk with
          | inl heq => exact absurd heq hne
          | inr hmem => exact hmem
      obtain ⟨w1, w2, w3, w4, w5⟩ :=
        ih (alErase key files) (removeHashEntry hashes r0.hash key)
          (deleteName r0.name disk) wf2
      rw [gcLoop_cons_gt hle e]
      refine ⟨w1, ?_, ?_, ?_, ?_⟩
      · show _ + 1 = (key :: rest).length - maxH
        simp only [List.length_cons] at hle ⊢
        omega
      · show _ = (key :: rest).drop (_ + 1)
        rw [List.drop_succ_cons]
        exact w3
      · intro s hs
        exact mem_deleteName (w4 s hs)
      · intro k hk rec hrec
        rw [List.take_succ_cons] at hk
        cases List.mem_cons.1 hk with
        | inl heq =>
          subst heq
          rw [e] at hrec
          cases hrec
          intro hmem
          exact name_not_mem_deleteName r0.name disk (w4 _ hmem)
        | inr hmem =>
          have hkrest : k ∈ rest := List.take_subset _ _ hmem
          have hne : k ≠ key := fun heq => hkeyrest (heq ▸ hkrest)
          have hrec2 : alFind k (alErase key files) = some rec := by
            rwa [alFind_alErase_ne _ hne]
          exact w5 k hmem rec hrec2

theorem addImpl_noop {db : FileDatabase} {key : FileKey} {hash : Hash}
    (name : String) {r : FileRec} (e : alFind key db.m_files = some r)
    (hh : r.hash = hash) : addToFilesHistoryImpl db key hash name = db := by
  unfold addToFilesHistoryImpl
  rw [e]
  dsimp only
  rw [if_pos hh]

theorem addImpl_replace {db : FileDatabase} {key : FileKey} {hash : Hash}
    (name : String) {r : FileRec} (e : alFind key db.m_files = some r)
    (hh : ¬ r.hash = hash) :
    addToFilesHistoryImpl db key hash name =
      { m_files := alSet key ⟨name, hash⟩ db.m_files
        m_fileHashes := addHashEntry (removeHashEntry db.m_fileHashes r.hash key) hash key
        m_filesHistory := removeAllKey key db.m_filesHistory ++ [key] } := by
  unfold addToFilesHistoryImpl
  rw [e]
  dsimp only
  rw [if_neg hh]

theorem addImpl_new {db : FileDatabase} {key : FileKey} {hash : Hash}
    (name : String) (e : alFind key db.m_files = none) :
    addToFilesHistoryImpl db key hash name =
      { m_files := alSet key ⟨name, hash⟩ db.m_files
        m_fileHashes := addHashEntry db.m_fileHashes hash key
        m_filesHistory := db.m_filesHistory ++ [key] } := by
  unfold addToFilesHistoryImpl
  rw [e]

/-- The insert mutation preserves well-formedness. -/
theorem DbWf_addImpl (db : FileDatabase) (key : FileKey) (hash : Hash)
    (name : String) (wf : DbWf db) : DbWf (addToFilesHistoryImpl db key hash name) := by
  cases e : alFind key db.m_files with
  | some r =>
    by_cases hh : r.hash = hash
    · rw [addImpl_noop name e hh]; exact wf
    · rw [addImpl_replace name e hh]
      constructor
      · -- histNodup
        rw [List.nodup_append]
        refine ⟨removeAllKey_nodup key _ wf.histNodup, List.nodup_singleton key, ?_⟩
        intro k hk hk'
        rw [List.mem_singleton] at hk'
        exact ((mem_removeAllKey k key _).1 hk).2 hk'
      · exact alKeys_alSet_nodup _ _ _ wf.filesNodup
      · exact addHashEntry_nodup _ _ _ (removeHashEntry_nodup _ _ _ wf.hashesNodup)
      · -- histInFiles
        intro k hk
        cases List.mem_append.1 hk with
        | inl hl =>
          obtain ⟨hm, hne⟩ := (mem_removeAllKey k key _).1 hl
          rw [alFind_alSet_ne _ _ hne]
          exact wf.histInFiles k hm
        | inr hr =>
          rw [List.mem_singleton] at hr
          subst hr
          rw [alFind_alSet_self]
          rfl
      · -- filesInHist
        intro k hk
        by_cases hne : k = key
        · subst hne
          exact List.mem_append_right _ (List.mem_singleton_self k)
        · rw [alFind_alSet_ne _ _ hne] at hk
          exact List.mem_append_left _
            ((mem_removeAllKey k key _).2 ⟨wf.filesInHist k hk, hne⟩)
      · -- hashPoints
        refine addHashEntry_hashPoints _ _ _ _ ⟨⟨name, hash⟩, alFind_alSet_self _ _ _, rfl⟩ ?_
        intro h k hf
        have hne : k ≠ key := removeHashEntry_not_points wf.hashPoints e h k hf
        obtain ⟨rec, hrec, hrh⟩ := wf.hashPoints h k (removeHashEntry_find hf)
        exact ⟨rec, by rwa [alFind_alSet_ne _ _ hne], hrh⟩
  | none =>
    rw [addImpl_new name e]
    have hkeyhist : key ∉ db.m_filesHistory := by
      intro hm
      have := wf.histInFiles key hm
      rw [e] at this
      cases this
    constructor
    · -- histNodup
      rw [List.nodup_append]
      refine ⟨wf.histNodup, List.nodup_singleton key, ?_⟩
      intro k hk hk'
      rw [List.mem_singleton] at hk'
      subst hk'
      exact hkeyhist hk
    · exact alKeys_alSet_nodup _ _ _ wf.filesNodup
    · exact addHashEntry_nodup _ _ _ wf.hashesNodup
    · -- histInFiles
      intro k hk
      cases List.mem_append.1 hk with
      | inl hl =>
        have hne : k ≠ key := fun heq => hkeyhist (heq ▸ hl)
        rw [alFind_alSet_ne _ _ hne]
        exact wf.histInFiles k hl
      | inr hr =>
        rw [List.mem_singleton] at hr
        subst hr
        rw [alFind_alSet_self]
        rfl
    · -- filesInHist
      intro k hk
      by_cases hne : k = key
      · subst hne
        exact List.mem_append_right _ (List.mem_singleton_self k)
      · rw [alFind_alSet_ne _ _ hne] at hk
        exact List.mem_append_left _ (wf.filesInHist k hk)
    · -- hashPoints
      refine addHashEntry_hashPoints _ _ _ _ ⟨⟨name, hash⟩, alFind_alSet_self _ _ _, rfl⟩ ?_
      intro h k hf
      obtain ⟨rec, hrec, hrh⟩ := wf.hashPoints h k hf
      have hne : k ≠ key := by
        intro heq
        subst heq
        rw [e] at hrec
        cases hrec
      exact ⟨rec, by rwa [alFind_alSet_ne _ _ hne], hrh⟩

theorem gcLoop_cons_gt_none {maxH : Nat} {files : List (FileKey × FileRec)}
    {hashes : List (Hash × FileKey)} {disk : List String} {key : FileKey}
    {rest : List FileKey}
    (h : ¬ (key :: rest).length ≤ maxH) (e : alFind key files = none) :
    gcLoop maxH files hashes disk (key :: rest) =
      { gcLoop maxH (alErase key files) hashes disk rest with
        evicted := (gcLoop maxH (alErase key files) hashes disk rest).evicted + 1 } := by
  conv_lhs => rw [gcLoop.eq_def]
  dsimp only
  rw [if_neg h, e]

/-- The eviction loop always brings the history length to
`min hist.length maxH`, independently of index well-formedness. -/
theorem gcLoop_history_length (maxH : Nat) (hist : List FileKey) :
    ∀ (files : List (FileKey × FileRec)) (hashes : List (Hash × FileKey))
      (disk : List String),
      (gcLoop maxH files hashes disk hist).history.length = min hist.length maxH := by
  induction hist with
  | nil => intro files hashes disk; simp [gcLoop]
  | cons key rest ih =>
    intro files hashes disk
    by_cases hle : (key :: rest).length ≤ maxH
    · rw [gcLoop_cons_le hle]
      simp only [List.length_cons] at hle ⊢
      omega
    · have hlen : ¬ rest.length + 1 ≤ maxH := by
        simpa [List.length_cons] using hle
      cases e : alFind key files with
      | some r0 =>
        rw [gcLoop_cons_gt hle e]
        show (gcLoop maxH (alErase key files) (removeHashEntry hashes r0.hash key)
          (deleteName r0.name disk) rest).history.length = _
        rw [ih]
        simp only [List.length_cons]
        omega
      | none =>
        rw [gcLoop_cons_gt_none hle e]
        show (gcLoop maxH (alErase key files) hashes disk rest).history.length = _
        rw [ih]
        simp only [List.length_cons]
        omega

/-- In a well-formed database the key index and the history have the same
size (each key occupies exactly one history slot). -/
theorem DbWf.files_length_eq {db : FileDatabase} (wf : DbWf db) :
    db.m_files.length = db.m_filesHistory.length := by
  have hperm : (alKeys db.m_files).Perm db.m_filesHistory :=
    (List.perm_ext_iff_of_nodup wf.filesNodup wf.histNodup).2 (fun a => by
      rw [mem_alKeys_iff]
      exact ⟨fun hs => wf.filesInHist a hs, fun hm => wf.histInFiles a hm⟩)
  have hlen := hperm.length_eq
  simpa [alKeys] using hlen

theorem emptyDb_wf : DbWf emptyDb where
  histNodup := List.nodup_nil
  filesNodup := List.nodup_nil
  hashesNodup := List.nodup_nil
  histInFiles := fun key h => absurd h (List.not_mem_nil key)
  filesInHist := fun key h => by simp [alFind, emptyDb] at h
  hashPoints := fun h key hh => by simp [alFind, emptyDb] at hh


theorem DbWf_garbageCollect (db : FileDatabase) (disk : List String) (k : Nat)
    (wf : DbWf db) : DbWf (garbageCollect db disk k).1 :=
  (gcLoop_spec k db.m_filesHistory db.m_files db.m_fileHashes disk wf).1

theorem garbageCollect_hist_length (db : FileDatabase) (disk : List String) (k : Nat) :
    (garbageCollect db disk k).1.m_filesHistory.length =
      min db.m_filesHistory.length k :=
  gcLoop_history_length k db.m_filesHistory db.m_files db.m_fileHashes disk

theorem removeFileHistory_absent {db : FileDatabase} {key : FileKey}
    (e : alFind key db.m_files = none) : removeFileHistory db key = db := by
  unfold removeFileHistory
  rw [e]

theorem removeFileHistory_present {db : FileDatabase} {key : FileKey} {r : FileRec}
    (e : alFind key db.m_files = some r) :
    removeFileHistory db key =
      { m_files := alErase key db.m_files
        m_fileHashes := removeHashEntry db.m_fileHashes r.hash key
        m_filesHistory := removeAllKey key db.m_filesHistory } := by
  unfold removeFileHistory
  rw [e]

theorem addToFilesHistory_noop {maxH : Nat} {db : FileDatabase} {disk : List String}
    {key : FileKey} {hash : Hash} {name : String} {r : FileRec}
    (e : alFind key db.m_files = some r) (hh : r.hash = hash) :
    addToFilesHistory maxH db disk key hash name = (db, disk) := by
  unfold addToFilesHistory
  rw [e]
  dsimp only
  rw [if_pos hh]

theorem addToFilesHistory_mutate_present {maxH : Nat} {db : FileDatabase}
    {disk : List String} {key : FileKey} {hash : Hash} {name : String} {r : FileRec}
    (e : alFind key db.m_files = some r) (hh : ¬ r.hash = hash) :
    addToFilesHistory maxH db disk key hash name =
      insertAndEvict maxH db disk key hash name := by
  unfold addToFilesHistory
  rw [e]
  dsimp only
  rw [if_neg hh]

theorem addToFilesHistory_mutate_absent {maxH : Nat} {db : FileDatabase}
    {disk : List String} {key : FileKey} {hash : Hash} {name : String}
    (e : alFind key db.m_files = none) :
    addToFilesHistory maxH db disk key hash name =
      insertAndEvict maxH db disk key hash name := by
  unfold addToFilesHistory
  rw [e]

theorem insertAndEvict_hist_le (maxH : Nat) (db : FileDatabase) (disk : List String)
    (key : FileKey) (hash : Hash) (name : String) :
    (insertAndEvict maxH db disk key hash name).1.m_filesHistory.length ≤ maxH := by
  unfold insertAndEvict
  dsimp only
  by_cases hlt : maxH < (addToFilesHistoryImpl db key hash name).m_filesHistory.length
  · rw [if_pos hlt]
    dsimp only
    rw [garbageCollect_hist_length]
    exact Nat.min_le_right _ _
  · rw [if_neg hlt]
    dsimp only
    omega

theorem insertAndEvict_preserves (maxH : Nat) (db : FileDatabase) (disk : List String)
    (key : FileKey) (hash : Hash) (name : String) (wf : DbWf db) :
    DbWf (insertAndEvict maxH db disk key hash name).1 ∧
    (insertAndEvict maxH db disk key hash name).1.m_filesHistory.length ≤ maxH := by
  refine ⟨?_, insertAndEvict_hist_le maxH db disk key hash name⟩
  have wf2 := DbWf_addImpl db key hash name wf
  unfold insertAndEvict
  dsimp only
  by_cases hlt : maxH < (addToFilesHistoryImpl db key hash name).m_filesHistory.length
  · rw [if_pos hlt]
    exact DbWf_garbageCollect _ _ _ wf2
  · rw [if_neg hlt]
    exact wf2

theorem addToFilesHistory_preserves (maxH : Nat) (db : FileDatabase)
    (disk : List String) (key : FileKey) (hash : Hash) (name : String)
    (wf : DbWf db) (hb : db.m_filesHistory.length ≤ maxH) :
    DbWf (addToFilesHistory maxH db disk key hash name).1 ∧
    (addToFilesHistory maxH db disk key hash name).1.m_filesHistory.length ≤ maxH := by
  cases e : alFind key db.m_files with
  | some r =>
    by_cases hh : r.hash = hash
    · rw [addToFilesHistory_noop e hh]
      exact ⟨wf, hb⟩
    · rw [addToFilesHistory_mutate_present e hh]
      exact insertAndEvict_preserves maxH db disk key hash name wf
  | none =>
    rw [addToFilesHistory_mutate_absent e]
    exact insertAndEvict_preserves maxH db disk key hash name wf

theorem dbStep_preserves (maxH : Nat) (s : FileDatabase × List String) (op : DbOp)
    (wf : DbWf s.1) (hb : s.1.m_filesHistory.length ≤ maxH) :
    DbWf (dbStep maxH s op).1 ∧
    (dbStep maxH s op).1.m_filesHistory.length ≤ maxH := by
  cases op with
  | add key hash name => exact addToFilesHistory_preserves maxH s.1 s.2 key hash name wf hb
  | remove key =>
    refine ⟨DbWf_removeFileHistory s.1 key wf, ?_⟩
    show (removeFileHistory s.1 key).m_filesHistory.length ≤ maxH
    cases e : alFind key s.1.m_files with
    | none => rw [removeFileHistory_absent e]; exact hb
    | some r =>
      rw [removeFileHistory_present e]
      exact le_trans (List.length_filter_le _ _) hb
  | collect k =>
    refine ⟨DbWf_garbageCollect s.1 s.2 k wf, ?_⟩
    show (garbageCollect s.1 s.2 k).1.m_filesHistory.length ≤ maxH
    rw [garbageCollect_hist_length]
    exact le_trans (Nat.min_le_left _ _) hb

theorem runDbOps_preserves (maxH : Nat) (disk : List String) (ops : List DbOp) :
    DbWf (runDbOps maxH disk ops).1 ∧
    (runDbOps maxH disk ops).1.m_filesHistory.length ≤ maxH := by
  suffices h : ∀ (l : List DbOp) (s : FileDatabase × List String),
      DbWf s.1 → s.1.m_filesHistory.length ≤ maxH →
      DbWf (l.foldl (dbStep maxH) s).1 ∧
      (l.foldl (dbStep maxH) s).1.m_filesHistory.length ≤ maxH by
    exact h ops (emptyDb, disk) emptyDb_wf (Nat.zero_le maxH)
  intro l
  induction l with
  | nil => exact fun s w b => ⟨w, b⟩
  | cons op rest ih =>
    intro s w b
    rw [List.foldl_cons]
    obtain ⟨w2, b2⟩ := dbStep_preserves maxH s op w b
    exact ih _ w2 b2

/-- **C1.** For every sequence of public-API mutations (`addToFilesHistory`,
`removeFileHistory`, `garbageCollect`) applied from the empty database, the
three indices stay consistent: every record in `m_files` is referenced by
exactly one position in `m_filesHistory`, every entry in `m_fileHashes`
points at a record present in `m_files`, and the number of entries in
`m_files` is at most the history length, which is at most the configured
maximum. -/
theorem fileDatabase_indices_consistent (maxH : Nat) (disk : List String)
    (ops : List DbOp) :
    (∀ key r, alFind key (runDbOps maxH disk ops).1.m_files = some r →
      (runDbOps maxH disk ops).1.m_filesHistory.count key = 1) ∧
    (∀ h k, alFind h (runDbOps maxH disk ops).1.m_fileHashes = some k →
      (alFind k (runDbOps maxH disk ops).1.m_files).isSome) ∧
    (runDbOps maxH disk ops).1.m_files.length ≤
      (runDbOps maxH disk ops).1.m_filesHistory.length ∧
    (runDbOps maxH disk ops).1.m_filesHistory.length ≤ maxH := by
  obtain ⟨wf, hb⟩ := runDbOps_preserves maxH disk ops
  refine ⟨?_, ?_, ?_, hb⟩
  · intro key r hf
    exact List.count_eq_one_of_mem wf.histNodup
      (wf.filesInHist key (by rw [hf]; rfl))
  · intro h k hf
    obtain ⟨rec, hrec, _⟩ := wf.hashPoints h k hf
    rw [hrec]
    rfl
  · exact le_of_eq wf.files_length_eq

/-- **C3.** `garbageCollect(k)` removes the oldest history entries while the
history length exceeds `k`, returns the number of evicted entries, leaves at
most `k` records in the key index, and deletes the on-disk representative
file referenced by each evicted record. -/
theorem garbageCollect_evicts_oldest (db : FileDatabase) (disk : List String)
    (k : Nat) (wf : DbWf db) :
    (garbageCollect db disk k).2.2 = db.m_filesHistory.length - k ∧
    (garbageCollect db disk k).1.m_filesHistory =
      db.m_filesHistory.drop (db.m_filesHistory.length - k) ∧
    (garbageCollect db disk k).1.m_files.length ≤ k ∧
    (∀ key, key ∈ db.m_filesHistory.take (db.m_filesHistory.length - k) →
      ∀ rec, alFind key db.m_files = some rec →
        rec.name ∉ (garbageCollect db disk k).2.1) := by
  obtain ⟨g1, g2, g3, g4, g5⟩ :=
    gcLoop_spec k db.m_filesHistory db.m_files db.m_fileHashes disk wf
  have wfgc : DbWf (garbageCollect db disk k).1 := g1
  refine ⟨g2, ?_, ?_, ?_⟩
  · rw [g2] at g3
    exact g3
  · rw [wfgc.files_length_eq, garbageCollect_hist_length]
    exact Nat.min_le_right _ _
  · intro key hk rec hrec
    have hk2 : key ∈ db.m_filesHistory.take
        (gcLoop k db.m_files db.m_fileHashes disk db.m_filesHistory).evicted := by
      rw [g2]
      exact hk
    exact g5 key hk2 rec hrec

/-- Concrete sample values used by the witnesses. -/
def keyW : FileKey := ⟨"a.bin", ⟨10, 20⟩, 5⟩

def hashW : Hash := ⟨3, 4⟩

def recW : FileRec := ⟨"srv/a.bin", hashW⟩

def dbW : FileDatabase := ⟨[(keyW, recW)], [(hashW, keyW)], [keyW]⟩

theorem dbW_wf : DbWf dbW where
  histNodup := by simp [dbW]
  filesNodup := by simp [dbW, alKeys]
  hashesNodup := by simp [dbW, alKeys]
  histInFiles := by
    intro key hk
    rw [show dbW.m_filesHistory = [keyW] from rfl, List.mem_singleton] at hk
    subst hk
    simp [dbW, alFind]
  filesInHist := by
    intro key hs
    by_cases hk : key = keyW
    · subst hk
      simp [dbW]
    · rw [show dbW.m_files = [(keyW, recW)] from rfl] at hs
      simp only [alFind] at hs
      rw [if_neg (fun heq : keyW = key => hk heq.symm)] at hs
      simp [alFind] at hs
  hashPoints := by
    intro h k hf
    rw [show dbW.m_fileHashes = [(hashW, keyW)] from rfl] at hf
    simp only [alFind] at hf
    by_cases hh : hashW = h
    · rw [if_pos hh] at hf
      cases hf
      refine ⟨recW, by simp [dbW, alFind], ?_⟩
      rw [show recW.hash = hashW from rfl, hh]
    · rw [if_neg hh] at hf
      simp [alFind] at hf

/-- Witness for C3: collecting `dbW` (one record, history length 1, its
representative file `srv/a.bin` on disk) down to `k = 0` evicts one entry,
empties the key index, and deletes the file from the disk. -/
theorem garbageCollect_evicts_oldest_witness :
    (garbageCollect dbW ["srv/a.bin"] 0).2.2 = 1 ∧
    (garbageCollect dbW ["srv/a.bin"] 0).1.m_files.length ≤ 0 ∧
    "srv/a.bin" ∉ (garbageCollect dbW ["srv/a.bin"] 0).2.1 := by
  have h := garbageCollect_evicts_oldest dbW ["srv/a.bin"] 0 dbW_wf
  refine ⟨by rw [h.1]; rfl, h.2.2.1, ?_⟩
  have hmem : keyW ∈ dbW.m_filesHistory.take (dbW.m_filesHistory.length - 0) := by
    simp [dbW]
  have hfind : alFind keyW dbW.m_files = some recW := by
    simp [dbW, alFind]
  have := h.2.2.2 keyW hmem recW hfind
  exact this

/-- **C2.** `addToFilesHistory(key, hash, path)` behaves as the spec's
insert: a no-op when `key` exists with an identical fingerprint; a record
replacement when `key` exists with a different fingerprint; each mutating
insert appends `key` as the newest history entry; and eviction runs whenever
the history exceeds the configured maximum (so the resulting history never
exceeds `max maxH` and the pre-existing length). -/
theorem addToFilesHistory_insert_semantics (maxH : Nat) (db : FileDatabase)
    (disk : List String) (key : FileKey) (hash : Hash) (name : String) :
    (∀ r, alFind key db.m_files = some r → r.hash = hash →
      addToFilesHistory maxH db disk key hash name = (db, disk)) ∧
    (∀ r, alFind key db.m_files = some r → r.hash ≠ hash →
      alFind key (addToFilesHistoryImpl db key hash name).m_files =
        some ⟨name, hash⟩ ∧
      (addToFilesHistoryImpl db key hash name).m_filesHistory =
        removeAllKey key db.m_filesHistory ++ [key]) ∧
    (alFind key db.m_files = none →
      alFind key (addToFilesHistoryImpl db key hash name).m_files =
        some ⟨name, hash⟩ ∧
      (addToFilesHistoryImpl db key hash name).m_filesHistory =
        db.m_filesHistory ++ [key]) ∧
    (addToFilesHistory maxH db disk key hash name).1.m_filesHistory.length ≤
      max maxH db.m_filesHistory.length := by
  refine ⟨?_, ?_, ?_, ?_⟩
  · intro r e hh
    exact addToFilesHistory_noop e hh
  · intro r e hh
    rw [addImpl_replace name e hh]
    exact ⟨alFind_alSet_self _ _ _, rfl⟩
  · intro e
    rw [addImpl_new name e]
    exact ⟨alFind_alSet_self _ _ _, rfl⟩
  · cases e : alFind key db.m_files with
    | some r =>
      by_cases hh : r.hash = hash
      · rw [addToFilesHistory_noop e hh]
        exact Nat.le_max_right _ _
      · rw [addToFilesHistory_mutate_present e hh]
        exact le_trans (insertAndEvict_hist_le maxH db disk key hash name)
          (Nat.le_max_left _ _)
    | none =>
      rw [addToFilesHistory_mutate_absent e]
      exact le_trans (insertAndEvict_hist_le maxH db disk key hash name)
        (Nat.le_max_left _ _)

/-- Witness for C2: inserting a fresh key into the empty database stores the
record and appends the key to the history. -/
theorem addToFilesHistory_insert_semantics_witness :
    alFind keyW (addToFilesHistoryImpl emptyDb keyW hashW "srv/a.bin").m_files =
      some ⟨"srv/a.bin", hashW⟩ ∧
    (addToFilesHistoryImpl emptyDb keyW hashW "srv/a.bin").m_filesHistory = [keyW] := by
  have h := (addToFilesHistory_insert_semantics 4 emptyDb [] keyW hashW
    "srv/a.bin").2.2.1 rfl
  exact ⟨h.1, h.2⟩

/-! ## Delta codec (spec §4.3)

Modelled from the spec: the delta implementation (`EACopyDelta.cpp` and the
third-party codec behind it) is absent from the source tree; per §4.3 the
encoder, "given a reference file path available to both encoder and
decoder, produces a delta from reference → target; the decoder consumes the
delta and reconstructs the target", and per §4.4 the wire carries "delta
instructions against this reference".  A delta is modelled as a sequence of
instructions, each either a copy of a byte range out of the reference or a
run of literal bytes; the encoder greedily copies from the aligned position
of the reference and falls back to literals. -/

/-- One delta instruction: copy `len` bytes of the reference starting at
`offset`, or emit literal bytes. -/
inductive DeltaInstr where
  | copy (offset len : Nat)
  | lit (bytes : List Nat)
deriving DecidableEq, Repr

/-- Modelled from the spec: the delta decoder of §4.3 — materialise the
instruction stream against the reference. -/
def deltaDecode (reference : List Nat) : List DeltaInstr → List Nat
  | [] => []
  | DeltaInstr.copy o l :: rest => ((reference.drop o).take l) ++ deltaDecode reference rest
  | DeltaInstr.lit bs :: rest => bs ++ deltaDecode reference rest

/-- Length of the common prefix of two byte runs. -/
def commonRunLen : List Nat → List Nat → Nat
  | a :: as, b :: bs => if a = b then commonRunLen as bs + 1 else 0
  | _, _ => 0

/-- Modelled from the spec: the delta encoder of §4.3, fuelled by the
target length.  At target position `pos` it emits a copy instruction for
the longest byte run shared with the reference at the same position, else a
literal byte; on fuel exhaustion it falls back to one literal run. -/
def deltaEncodeAux (reference : List Nat) : Nat → Nat → List Nat → List DeltaInstr
  | 0, _, t => if t.isEmpty then [] else [DeltaInstr.lit t]
  | _ + 1, _, [] => []
  | fuel + 1, pos, b :: rest =>
    let m := commonRunLen (reference.drop pos) (b :: rest)
    if 0 < m then
      DeltaInstr.copy pos m :: deltaEncodeAux reference fuel (pos + m) ((b :: rest).drop m)
    else
      DeltaInstr.lit [b] :: deltaEncodeAux reference fuel (pos + 1) rest

/-- Modelled from the spec: `deltaEncode(reference, target)` of §4.3. -/
def deltaEncode (reference target : List Nat) : List DeltaInstr :=
  deltaEncodeAux reference target.length 0 target

theorem commonRunLen_take (a b : List Nat) :
    a.take (commonRunLen a b) = b.take (commonRunLen a b) := by
  induction a generalizing b with
  | nil => simp [commonRunLen]
  | cons x as ih =>
    cases b with
    | nil => simp [commonRunLen]
    | cons y bs =>
      by_cases h : x = y
      · have hc : commonRunLen (x :: as) (y :: bs) = commonRunLen as bs + 1 := by
          simp [commonRunLen, h]
        rw [hc, List.take_succ_cons, List.take_succ_cons, ih bs, h]
      · simp [commonRunLen, if_neg h]

theorem commonRunLen_le (a b : List Nat) : commonRunLen a b ≤ b.length := by
  induction a generalizing b with
  | nil => simp [commonRunLen]
  | cons x as ih =>
    cases b with
    | nil => simp [commonRunLen]
    | cons y bs =>
      by_cases h : x = y
      · simp only [commonRunLen, if_pos h, List.length_cons]
        exact Nat.succ_le_succ (ih bs)
      · simp [commonRunLen, if_neg h]

theorem deltaEncodeAux_decode (reference : List Nat) (fuel : Nat) :
    ∀ (pos : Nat) (t : List Nat),
      deltaDecode reference (deltaEncodeAux reference fuel pos t) = t := by
  induction fuel with
  | zero =>
    intro pos t
    cases t with
    | nil => rfl
    | cons b rest => simp [deltaEncodeAux, deltaDecode]
  | succ fuel ih =>
    intro pos t
    cases t with
    | nil => rfl
    | cons b rest =>
      simp only [deltaEncodeAux]
      by_cases hm : 0 < commonRunLen (reference.drop pos) (b :: rest)
      · rw [if_pos hm]
        simp only [deltaDecode, ih]
        rw [commonRunLen_take]
        exact List.take_append_drop _ _
      · rw [if_neg hm]
        simp only [deltaDecode, ih]
        rfl

/-- **C4.** Decoding the delta produced by encoding `target` against
`reference` reconstructs the target exactly, byte for byte. -/
theorem deltaDecode_deltaEncode (reference target : List Nat) :
    deltaDecode reference (deltaEncode reference target) = target :=
  deltaEncodeAux_decode reference target.length 0 target

end EACopy
